import Mathlib

/-!
Verification of the `sputnikvm` single-step EVM execution engine
(`src/eval/mod.rs`).  The visible source is the orchestrating state
machine: `State`, `Machine`, `MachineStatus`, `Control`, `ControlCheck`,
`Machine::new` / `with_states` / `derive` / `commit_account` /
`commit_blockhash` / `step_precompiled` / `step`.

The modules `check`, `run`, `cost`, the `Patch` trait, the `PC` cursor,
and the commit caches are not part of the visible source.  They are
embedded as follows: the per-instruction hooks (`check_opcode`,
`check_support`, `extra_check_opcode`, `run_opcode`, `gas_cost`,
`gas_stipend`, `gas_refund`, `memory_cost`) and the precompiled list are
abstract fields of a `Patch` record, so theorems about `step` quantify
over every possible implementation of the missing modules; the cursor
`PC`, the commit caches and `memory_gas` are modelled concretely from
the spec where a claim needs their behaviour (each such definition says
so in its doc comment).

Machine words (256-bit values, addresses, hashes) are embedded as `Nat`;
the gas type of the `bigint` crate is a signed 256-bit integer and is
embedded as `Int`.  Rust panics (the `panic!` on stepping a terminal
machine, the `assert!` in `step_precompiled` and the two `unwrap` calls
in `step`) are embedded as `Option`: a `none` result is a panic.
-/

deriving instance DecidableEq for Except

namespace SputnikVM

/-- Gas quantities (`bigint::Gas`, a signed integer type). -/
abbrev Gas := Int

/-- 256-bit machine words, addresses and hashes are embedded as `Nat`. -/
abbrev Word := Nat

/-- On-chain protocol-defined execution failures (`errors::OnChainError`). -/
inductive OnChainError where
  | EmptyGas
  | StackUnderflow
  | StackOverflow
  | BadJumpDest
  | InvalidOpcode
  | PCOverflow
deriving DecidableEq

/-- Failures meaning the instruction is disabled under the active hardfork
configuration (`errors::NotSupportedError`). -/
inductive NotSupportedError where
  | NotSupported
deriving DecidableEq

/-- A missing external fact: which account datum or block hash must be
committed before `step` can proceed (`errors::RequireError`). -/
inductive RequireError where
  | Account (address : Word)
  | AccountCode (address : Word)
  | AccountStorage (address : Word) (index : Word)
  | Blockhash (number : Word)
deriving DecidableEq

/-- Error raised by the commit operations on conflicting facts
(`errors::CommitError`). -/
inductive CommitError where
  | AlreadyCommitted
  | InvalidCommitment
deriving DecidableEq

/-- Either an on-chain failure or a missing-fact requirement
(`errors::EvalOnChainError`). -/
inductive EvalOnChainError where
  | OnChain (e : OnChainError)
  | Require (e : RequireError)
deriving DecidableEq

/-- Runtime errors returned by precompiled contracts
(`errors::RuntimeError`). -/
inductive RuntimeError where
  | OnChain (e : OnChainError)
  | NotSupported (e : NotSupportedError)
deriving DecidableEq

/-- One decoded unit of executable bytecode.  Modelled from the spec:
the concrete `Instruction` enum is outside the visible source; for the
orchestration claims only the jump instruction, the jump-destination
marker and push instructions (which carry immediate operand bytes) need
to be distinguished. -/
inductive Instruction where
  | stop
  | jump
  | jumpdest
  | push (n : Nat)
  | other (b : Nat)
deriving DecidableEq

/-- Number of immediate operand bytes following an instruction's opcode
byte in the code stream. -/
def immSize : Instruction → Nat
  | .push n => n
  | _ => 0

/-- A tagged unit of externally supplied account data
(`AccountCommitment`).  Modelled from the spec: full account
(balance, nonce, code), code-only, a single storage slot, or
"does not exist". -/
inductive AccountCommitment where
  | full (address : Word) (balance : Word) (nonce : Word) (codeBytes : List Nat)
  | codeOnly (address : Word) (codeBytes : List Nat)
  | storage (address : Word) (index : Word) (value : Word)
  | nonexist (address : Word)
deriving DecidableEq

/-- The key (address plus fact kind, plus slot index for storage facts)
identifying which external fact a commitment supplies. -/
def commitmentKey : AccountCommitment → Word × Nat × Word
  | .full a _ _ _ => (a, 0, 0)
  | .codeOnly a _ => (a, 1, 0)
  | .storage a i _ => (a, 2, i)
  | .nonexist a => (a, 3, 0)

/-- Lazily populated cache of committed account facts (`AccountState`).
Modelled from the spec: a monotone collection of committed facts;
committing a fact that conflicts with one already recorded for the same
key fails with a `CommitError`. -/
structure AccountState where
  committed : List AccountCommitment
deriving DecidableEq

/-- Empty account cache (`AccountState::default`). -/
def AccountState.default : AccountState := ⟨[]⟩

/-- Commit an account fact (`AccountState::commit`).  Modelled from the
spec: fails iff a conflicting fact (same key, different data) was
already committed; otherwise the fact is added. -/
def AccountState.commit (s : AccountState) (c : AccountCommitment) :
    Except CommitError AccountState :=
  if s.committed.any (fun c0 => commitmentKey c0 = commitmentKey c ∧ c0 ≠ c) then
    .error .AlreadyCommitted
  else
    .ok ⟨c :: s.committed⟩

/-- Lazily populated cache of historical block hashes (`BlockhashState`).
Modelled from the spec: a mapping from block number to committed hash. -/
structure BlockhashState where
  hashes : List (Word × Word)
deriving DecidableEq

/-- Empty blockhash cache (`BlockhashState::default`). -/
def BlockhashState.default : BlockhashState := ⟨[]⟩

/-- Commit a block hash (`BlockhashState::commit`).  Modelled from the
spec: fails iff a different hash was already committed for the same
block number. -/
def BlockhashState.commit (s : BlockhashState) (number : Word) (hash : Word) :
    Except CommitError BlockhashState :=
  if s.hashes.any (fun p => p.1 = number ∧ p.2 ≠ hash) then
    .error .AlreadyCommitted
  else
    .ok ⟨(number, hash) :: s.hashes⟩

/-- Immutable per-frame inputs (`Context`). -/
structure Context where
  address : Word
  caller : Word
  code : List Nat
  data : List Nat
  gas_limit : Gas
  value : Word
  origin : Word
  gas_price : Gas
deriving DecidableEq

/-- Block-level environment (`HeaderParams`). -/
structure HeaderParams where
  beneficiary : Word
  timestamp : Word
  number : Word
  difficulty : Word
  gas_limit : Gas
deriving DecidableEq

/-- A log entry (`Log`): address, topic words, data bytes. -/
structure Log where
  address : Word
  topics : List Word
  data : List Nat
deriving DecidableEq

/-- Check result for jump instructions (`ControlCheck`). -/
inductive ControlCheck where
  | Jump (dest : Word)
deriving DecidableEq

/-- Transient per-step control signal produced by the executor
(`Control`). -/
inductive Control where
  | Stop
  | Jump (dest : Word)
  | InvokeCreate (context : Context)
  | InvokeCall (context : Context) (range : Word × Word)
deriving DecidableEq

/-- The runtime status of a machine (`MachineStatus`). -/
inductive MachineStatus where
  | Running
  | ExitedOk
  | ExitedErr (e : OnChainError)
  | ExitedNotSupported (e : NotSupportedError)
  | InvokeCreate (context : Context)
  | InvokeCall (context : Context) (range : Word × Word)
deriving DecidableEq

/-- The VM state without the program counter (`State<M>`), with exactly
the fields of the source structure. -/
structure State (Mem : Type) where
  memory : Mem
  stack : List Word
  context : Context
  block : HeaderParams
  out : List Nat
  memory_cost : Gas
  used_gas : Gas
  refunded_gas : Gas
  account_state : AccountState
  blockhash_state : BlockhashState
  logs : List Log
  removed : List Word
  depth : Nat
deriving DecidableEq

/-- Convert a memory cost into a gas quantity (`cost::memory_gas`).
Modelled from the spec: the quadratic-plus-linear formula
`3 * c + c * c / 512`. -/
def memoryGas (c : Gas) : Gas :=
  3 * c + c * c / 512

/-- Memory gas of a state (`State::memory_gas`). -/
def State.memory_gas {Mem : Type} (s : State Mem) : Gas :=
  memoryGas s.memory_cost

/-- Total used gas including the memory gas (`State::total_used_gas`). -/
def State.total_used_gas {Mem : Type} (s : State Mem) : Gas :=
  s.memory_gas + s.used_gas

/-- Available gas at this moment (`State::available_gas`). -/
def State.available_gas {Mem : Type} (s : State Mem) : Gas :=
  s.context.gas_limit - s.memory_gas - s.used_gas

/-- The largest value of the host's `usize` type (64-bit). -/
def usizeMax : Nat := 2 ^ 64 - 1

/-- Truncation of a 256-bit word to `usize` (`M256::as_usize`). -/
def asUsize (n : Word) : Nat := n % 2 ^ 64

/-- Per byte offset of a code sequence, whether the offset is a valid
jump destination.  Modelled from the spec: a single linear pre-scan of
the code marks every byte offset as an instruction start or as data
inside a push-immediate operand (opcode bytes `0x60`–`0x7f` are pushes
of `b - 0x5f` immediate bytes); an offset is valid iff it is an
instruction start holding the jump-destination marker opcode `0x5b`. -/
def validMapAux : Nat → List Nat → List Bool
  | 0, _ => []
  | _ + 1, [] => []
  | fuel + 1, b :: rest =>
    if 0x60 ≤ b ∧ b ≤ 0x7f then
      decide (b = 0x5b) ::
        (List.replicate (min (b - 0x5f) rest.length) false ++
          validMapAux fuel (rest.drop (b - 0x5f)))
    else
      decide (b = 0x5b) :: validMapAux fuel rest

/-- The jump-destination map of a code sequence: the pre-scan run with
enough fuel to visit every instruction start. -/
def validMap (code : List Nat) : List Bool :=
  validMapAux code.length code

/-- The instruction cursor (`PC<P>`).  Modelled from the spec: a fixed
byte sequence together with a position. -/
structure PC where
  code : List Nat
  position : Nat
deriving DecidableEq

/-- Create a cursor at position zero (`PC::new`). -/
def PC.new (code : List Nat) : PC := ⟨code, 0⟩

/-- Whether the cursor position has reached the code length
(`PC::is_end`). -/
def PC.is_end (pc : PC) : Bool :=
  decide (pc.code.length ≤ pc.position)

/-- Whether a candidate jump target is a valid destination
(`PC::is_valid`): within bounds, an instruction start (not inside a
push-immediate operand) and holding the jump-destination marker. -/
def PC.is_valid (pc : PC) (target : Nat) : Bool :=
  (validMap pc.code).getD target false

/-- Decode the instruction at the current position without advancing
(`PC::peek`).  Modelled from the spec: fails if no valid instruction
decodes at the position. -/
def PC.peek (dec : Nat → Option Instruction) (pc : PC) :
    Except OnChainError Instruction :=
  if h : pc.position < pc.code.length then
    match dec (pc.code.get ⟨pc.position, h⟩) with
    | some i => .ok i
    | none => .error .InvalidOpcode
  else
    .error .PCOverflow

/-- Decode the instruction at the current position and advance past it,
including any push-immediate bytes (`PC::read`). -/
def PC.read (dec : Nat → Option Instruction) (pc : PC) :
    Except OnChainError (Instruction × PC) :=
  match pc.peek dec with
  | .error e => .error e
  | .ok i => .ok (i, { pc with position := pc.position + 1 + immSize i })

/-- Reposition the cursor to a pre-validated target (`PC::jump`).
Modelled from the spec: fails iff the target is beyond the code. -/
def PC.jump (pc : PC) (target : Nat) : Option PC :=
  if target ≤ pc.code.length then some { pc with position := target } else none

/-- One configured precompiled contract: address, optional exact-code
matcher, and the callable (`Patch::precompileds` entries). -/
structure PrecompiledEntry where
  address : Word
  codeMatch : Option (List Nat)
  gas_and_step : List Nat → Gas → Except RuntimeError (Gas × List Nat)

/-- The hardfork rule set together with the per-instruction hook
functions of the `check`, `run` and `cost` modules, which are outside
the visible source.  Theorems about `Machine.step` quantify over every
`Patch`, hence over every possible implementation of those modules. -/
structure Patch (Mem : Type) where
  memDefault : Mem
  decode : Nat → Option Instruction
  precompileds : List PrecompiledEntry
  check_opcode : Instruction → State Mem → Except EvalOnChainError (Option ControlCheck)
  check_support : Instruction → State Mem → Except NotSupportedError Unit
  extra_check_opcode : Instruction → State Mem → Gas → Gas → Except OnChainError Unit
  run_opcode : Instruction × Nat → State Mem → Gas → Gas → State Mem × Option Control
  gas_cost : Instruction → State Mem → Gas
  gas_stipend : Instruction → State Mem → Gas
  gas_refund : Instruction → State Mem → Gas
  memory_cost : Instruction → State Mem → Gas

/-- A VM state with a program counter (`Machine<M, P>`). -/
structure Machine (Mem : Type) where
  state : State Mem
  pc : PC
  status : MachineStatus
deriving DecidableEq

/-- Create a new runtime with the given caches (`Machine::with_states`). -/
def Machine.with_states {Mem : Type} (P : Patch Mem) (context : Context)
    (block : HeaderParams) (depth : Nat) (account_state : AccountState)
    (blockhash_state : BlockhashState) : Machine Mem :=
  { pc := PC.new context.code
    status := .Running
    state :=
      { memory := P.memDefault
        stack := []
        context := context
        block := block
        out := []
        memory_cost := 0
        used_gas := 0
        refunded_gas := 0
        account_state := account_state
        blockhash_state := blockhash_state
        logs := []
        removed := []
        depth := depth } }

/-- Create a new runtime with empty caches (`Machine::new`). -/
def Machine.new {Mem : Type} (P : Patch Mem) (context : Context)
    (block : HeaderParams) (depth : Nat) : Machine Mem :=
  Machine.with_states P context block depth AccountState.default BlockhashState.default

/-- Derive a sub runtime (`Machine::derive`): fresh memory, stack,
output and gas counters, depth plus one, and value-copies of the
parent's caches, logs and removed set. -/
def Machine.derive {Mem : Type} (P : Patch Mem) (m : Machine Mem)
    (context : Context) : Machine Mem :=
  { pc := PC.new context.code
    status := .Running
    state :=
      { memory := P.memDefault
        stack := []
        context := context
        block := m.state.block
        out := []
        memory_cost := 0
        used_gas := 0
        refunded_gas := 0
        account_state := m.state.account_state
        blockhash_state := m.state.blockhash_state
        logs := m.state.logs
        removed := m.state.removed
        depth := m.state.depth + 1 } }

/-- Commit a new account fact into this runtime
(`Machine::commit_account`); only the account cache is touched. -/
def Machine.commit_account {Mem : Type} (m : Machine Mem)
    (commitment : AccountCommitment) : Except CommitError Unit × Machine Mem :=
  match m.state.account_state.commit commitment with
  | .ok s' => (.ok (), { m with state := { m.state with account_state := s' } })
  | .error e => (.error e, m)

/-- Commit a new block hash into this runtime
(`Machine::commit_blockhash`); only the blockhash cache is touched. -/
def Machine.commit_blockhash {Mem : Type} (m : Machine Mem)
    (number : Word) (hash : Word) : Except CommitError Unit × Machine Mem :=
  match m.state.blockhash_state.commit number hash with
  | .ok s' => (.ok (), { m with state := { m.state with blockhash_state := s' } })
  | .error e => (.error e, m)

/-- Whether a precompiled entry matches the current frame: the frame's
address equals the entry's address and, when an exact-code matcher is
present, the code equals it. -/
def precompiledMatches (address : Word) (code : List Nat)
    (p : PrecompiledEntry) : Bool :=
  decide (address = p.address) &&
    (p.codeMatch.isNone || decide (p.codeMatch = some code))

/-- Step a precompiled runtime (`Machine::step_precompiled`): returns
`true` together with the updated machine when the frame's address is a
configured precompiled address, and `false` with the machine unchanged
otherwise.  A `none` result is the `assert!` panic on a precompiled
reporting more gas than the gas limit. -/
def Machine.step_precompiled {Mem : Type} (P : Patch Mem) (m : Machine Mem) :
    Option (Bool × Machine Mem) :=
  match P.precompileds.find? (precompiledMatches m.state.context.address m.pc.code) with
  | none => some (false, m)
  | some pre =>
    match pre.gas_and_step m.state.context.data m.state.context.gas_limit with
    | .error (.OnChain err) =>
      some (true, { m with
        state := { m.state with used_gas := m.state.context.gas_limit }
        status := .ExitedErr err })
    | .error (.NotSupported err) =>
      some (true, { m with status := .ExitedNotSupported err })
    | .ok (gas, ret) =>
      if gas ≤ m.state.context.gas_limit then
        some (true, { m with
          state := { m.state with used_gas := gas, out := ret }
          status := .ExitedOk })
      else none

/-- The opcode check of `step` (the `check_opcode(...).and_then(...)`
block): run `check_opcode` and resolve a `ControlCheck::Jump` against
the cursor's jump-target validator. -/
def Machine.checkedOpcode {Mem : Type} (P : Patch Mem) (instruction : Instruction)
    (m : Machine Mem) : Except EvalOnChainError Unit :=
  match P.check_opcode instruction m.state with
  | .error e => .error e
  | .ok none => .ok ()
  | .ok (some (.Jump dest)) =>
    if dest ≤ usizeMax ∧ m.pc.is_valid (asUsize dest) then .ok ()
    else .error (.OnChain .BadJumpDest)

/-- Step one instruction (`Machine::step`).  A `none` result is a panic
(stepping a terminal machine, the precompiled `assert!`, or one of the
two `unwrap` calls); otherwise the result carries the value returned by
the Rust function together with the machine after the call. -/
def Machine.step {Mem : Type} (P : Patch Mem) (m : Machine Mem) :
    Option (Except RequireError Unit × Machine Mem) :=
  match m.status with
  | .Running =>
    match m.step_precompiled P with
    | none => none
    | some (true, m') => some (.ok (), m')
    | some (false, m') =>
      if m'.pc.is_end then
        some (.ok (), { m' with status := .ExitedOk })
      else
        match m'.pc.peek P.decode with
        | .error err => some (.ok (), { m' with status := .ExitedErr err })
        | .ok instruction =>
          match m'.checkedOpcode P instruction with
          | .error (.OnChain error) =>
            some (.ok (), { m' with status := .ExitedErr error })
          | .error (.Require error) => some (.error error, m')
          | .ok () =>
            let position := m'.pc.position
            let memory_cost := P.memory_cost instruction m'.state
            let memory_gas := memoryGas memory_cost
            let gas_cost := P.gas_cost instruction m'.state
            let gas_stipend := P.gas_stipend instruction m'.state
            let gas_refund := P.gas_refund instruction m'.state
            let all_gas_cost := memory_gas + m'.state.used_gas + gas_cost
            if m'.state.context.gas_limit < all_gas_cost then
              some (.ok (), { m' with status := .ExitedErr .EmptyGas })
            else
              match P.check_support instruction m'.state with
              | .error err =>
                some (.ok (), { m' with status := .ExitedNotSupported err })
              | .ok () =>
                let after_gas := m'.state.context.gas_limit - all_gas_cost
                match P.extra_check_opcode instruction m'.state gas_stipend after_gas with
                | .error err => some (.ok (), { m' with status := .ExitedErr err })
                | .ok () =>
                  match m'.pc.read P.decode with
                  | .error _ => none
                  | .ok (instruction, pc') =>
                    let runResult :=
                      P.run_opcode (instruction, position) m'.state gas_stipend after_gas
                    let state' :=
                      { runResult.1 with
                        used_gas := runResult.1.used_gas + gas_cost - gas_stipend
                        memory_cost := memory_cost
                        refunded_gas := runResult.1.refunded_gas + gas_refund }
                    match runResult.2 with
                    | none => some (.ok (), { m' with state := state', pc := pc' })
                    | some (.Jump dest) =>
                      match pc'.jump (asUsize dest) with
                      | none => none
                      | some pc'' =>
                        some (.ok (), { m' with state := state', pc := pc'' })
                    | some (.InvokeCall context range) =>
                      some (.ok (), { m' with
                        state := state', pc := pc'
                        status := .InvokeCall context range })
                    | some (.InvokeCreate context) =>
                      some (.ok (), { m' with
                        state := state', pc := pc'
                        status := .InvokeCreate context })
                    | some .Stop =>
                      some (.ok (), { m' with state := state', pc := pc'
                                              status := .ExitedOk })
  | _ => none

/-!
A concrete demonstration patch.  Modelled from the spec: it instantiates
the missing `check`, `run` and `cost` modules for the small instruction
subset needed by the end-to-end scenarios (push instructions, the jump
instruction, the jump-destination marker and stop), with the standard
gas-cost table values for these instructions and no precompiled
contracts.
-/

/-- Decode a raw opcode byte.  Modelled from the spec: `0x00` is stop,
`0x56` the jump instruction, `0x5b` the jump-destination marker, and
`0x60`–`0x7f` are pushes of `b - 0x5f` immediate bytes. -/
def demoDecode (b : Nat) : Option Instruction :=
  if b = 0x00 then some .stop
  else if b = 0x56 then some .jump
  else if b = 0x5b then some .jumpdest
  else if 0x60 ≤ b ∧ b ≤ 0x7f then some (.push (b - 0x5f))
  else none

/-- The precondition checker for the demonstration patch.  Modelled from
the spec: pushes fail on stack overflow beyond the 1024 capacity, the
jump instruction needs one stack item and reports its target through
`ControlCheck::Jump`. -/
def demoCheck : Instruction → State Unit → Except EvalOnChainError (Option ControlCheck)
  | .push _, s =>
    if s.stack.length + 1 ≤ 1024 then .ok none
    else .error (.OnChain .StackOverflow)
  | .jump, s =>
    match s.stack with
    | [] => .error (.OnChain .StackUnderflow)
    | d :: _ => .ok (some (.Jump d))
  | _, _ => .ok none

/-- Big-endian interpretation of a byte sequence as a word. -/
def wordOfBytes (bs : List Nat) : Word :=
  bs.foldl (fun acc b => acc * 256 + b % 256) 0

/-- The opcode executor for the demonstration patch.  Modelled from the
spec: a push reads its immediate operand bytes from the code at the
instruction's position and pushes the word; the jump instruction pops
its target and emits `Control::Jump`; stop emits `Control::Stop`. -/
def demoRun : Instruction × Nat → State Unit → Gas → Gas → State Unit × Option Control
  | (.push n, pos), s, _, _ =>
    let v := wordOfBytes ((s.context.code.drop (pos + 1)).take n)
    ({ s with stack := v :: s.stack }, none)
  | (.jump, _), s, _, _ =>
    match s.stack with
    | [] => (s, none)
    | d :: rest => ({ s with stack := rest }, some (.Jump d))
  | (.stop, _), s, _, _ => (s, some .Stop)
  | (.jumpdest, _), s, _, _ => (s, none)
  | (.other _, _), s, _, _ => (s, none)

/-- The gas-cost table of the demonstration patch.  Modelled from the
spec: the standard costs for this subset (push 3, jump 8,
jump-destination marker 1, stop 0). -/
def demoGasCost : Instruction → State Unit → Gas
  | .push _, _ => 3
  | .jump, _ => 8
  | .jumpdest, _ => 1
  | _, _ => 0

/-- The demonstration patch assembled. -/
def demoPatch : Patch Unit where
  memDefault := ()
  decode := demoDecode
  precompileds := []
  check_opcode := demoCheck
  check_support := fun _ _ => .ok ()
  extra_check_opcode := fun _ _ _ _ => .ok ()
  run_opcode := demoRun
  gas_cost := demoGasCost
  gas_stipend := fun _ _ => 0
  gas_refund := fun _ _ => 0
  memory_cost := fun _ s => s.memory_cost

/-- A per-frame context whose code is the two-instruction program
`PUSH1 0x01, JUMP` (bytes `0x60 0x01 0x56`). -/
def demoContext : Context :=
  { address := 0xa
    caller := 0xb
    code := [0x60, 0x01, 0x56]
    data := []
    gas_limit := 100000
    value := 0
    origin := 0xb
    gas_price := 1 }

/-- A block header for the demonstration machine. -/
def demoBlock : HeaderParams :=
  { beneficiary := 0xc
    timestamp := 1
    number := 1
    difficulty := 1
    gas_limit := 1000000 }

/-- A fresh machine on the `PUSH1 0x01, JUMP` program. -/
def demoMachine : Machine Unit :=
  Machine.new demoPatch demoContext demoBlock 0

example :
    (Machine.step demoPatch demoMachine).map (fun r => r.2.status) =
      some .Running := by decide

example :
    ((Machine.step demoPatch demoMachine).bind (fun r => Machine.step demoPatch r.2)).map
        (fun r => r.2.status) =
      some (.ExitedErr .BadJumpDest) := by decide

/-!
Helper lemmas about the cursor and the precompiled dispatch.
-/

/-- When `step_precompiled` reports `false`, the machine is unchanged and
no precompiled entry matches the frame. -/
lemma step_precompiled_false {Mem : Type} {P : Patch Mem} {m x : Machine Mem}
    (h : m.step_precompiled P = some (false, x)) :
    x = m ∧
      P.precompileds.find? (precompiledMatches m.state.context.address m.pc.code) = none := by
  unfold Machine.step_precompiled at h
  split at h
  · exact ⟨by injection h with h'; exact (Prod.mk.injEq _ _ _ _ ▸ h').2.symm, by assumption⟩
  · split at h
    · simp at h
    · simp at h
    · split at h
      · simp at h
      · exact Option.noConfusion h

/-- Reading after a successful peek succeeds, yields the peeked
instruction, and advances the position past it without changing the
code. -/
lemma read_of_peek {dec : Nat → Option Instruction} {pc : PC} {i : Instruction}
    (h : pc.peek dec = .ok i) :
    pc.read dec = .ok (i, { pc with position := pc.position + 1 + immSize i }) := by
  unfold PC.read
  rw [h]

/-- The fuel argument of `validMapAux` is irrelevant once it is at least
the code length. -/
lemma validMapAux_congr :
    ∀ (fuel₁ fuel₂ : Nat) (code : List Nat), code.length ≤ fuel₁ → code.length ≤ fuel₂ →
      validMapAux fuel₁ code = validMapAux fuel₂ code := by
  intro fuel₁
  induction fuel₁ with
  | zero =>
    intro fuel₂ code h₁ h₂
    have : code = [] := List.length_eq_zero.mp (Nat.le_zero.mp h₁)
    subst this
    cases fuel₂ <;> rfl
  | succ f ih =>
    intro fuel₂ code h₁ h₂
    cases code with
    | nil => cases fuel₂ <;> rfl
    | cons b rest =>
      cases fuel₂ with
      | zero => simp at h₂
      | succ f₂ =>
        simp only [validMapAux]
        split
        · have hlen : (rest.drop (b - 0x5f)).length ≤ f := by
            simp only [List.length_drop]
            simp only [List.length_cons] at h₁
            omega
          have hlen₂ : (rest.drop (b - 0x5f)).length ≤ f₂ := by
            simp only [List.length_drop]
            simp only [List.length_cons] at h₂
            omega
          rw [ih f₂ _ hlen hlen₂]
        · have hlen : rest.length ≤ f := by
            simp only [List.length_cons] at h₁
            omega
          have hlen₂ : rest.length ≤ f₂ := by
            simp only [List.length_cons] at h₂
            omega
          rw [ih f₂ _ hlen hlen₂]

/-- Unfolding of `validMap` on a push opcode. -/
lemma validMap_cons_push {b : Nat} (rest : List Nat) (h : 0x60 ≤ b ∧ b ≤ 0x7f) :
    validMap (b :: rest) =
      decide (b = 0x5b) ::
        (List.replicate (min (b - 0x5f) rest.length) false ++
          validMap (rest.drop (b - 0x5f))) := by
  unfold validMap
  simp only [List.length_cons, validMapAux, if_pos h]
  rw [validMapAux_congr rest.length (rest.drop (b - 0x5f)).length (rest.drop (b - 0x5f))
    (by simp only [List.length_drop]; omega) (le_refl _)]

/-- Unfolding of `validMap` on a non-push opcode. -/
lemma validMap_cons_other {b : Nat} (rest : List Nat) (h : ¬(0x60 ≤ b ∧ b ≤ 0x7f)) :
    validMap (b :: rest) = decide (b = 0x5b) :: validMap rest := by
  unfold validMap
  simp only [List.length_cons, validMapAux, if_neg h]

/-- The jump-destination map has one entry per code byte. -/
lemma validMap_length : ∀ code : List Nat, (validMap code).length = code.length := by
  have aux : ∀ (fuel : Nat) (code : List Nat), code.length ≤ fuel →
      (validMapAux fuel code).length = code.length := by
    intro fuel
    induction fuel with
    | zero =>
      intro code h
      have : code = [] := List.length_eq_zero.mp (Nat.le_zero.mp h)
      subst this
      rfl
    | succ f ih =>
      intro code h
      cases code with
      | nil => rfl
      | cons b rest =>
        simp only [validMapAux]
        split
        · have hlen : (rest.drop (b - 0x5f)).length ≤ f := by
            simp only [List.length_drop]
            simp only [List.length_cons] at h
            omega
          simp only [List.length_cons, List.length_append, List.length_replicate,
            ih _ hlen, List.length_drop]
          simp only [List.length_cons] at h ⊢
          omega
        · have hlen : rest.length ≤ f := by
            simp only [List.length_cons] at h
            omega
          simp only [List.length_cons, ih _ hlen]
  intro code
  exact aux code.length code (le_refl _)

/-- A valid jump target lies strictly inside the code. -/
lemma is_valid_lt {pc : PC} {t : Nat} (h : pc.is_valid t = true) :
    t < pc.code.length := by
  by_contra hge
  have hlen : (validMap pc.code).length ≤ t := by
    rw [validMap_length]
    omega
  unfold PC.is_valid at h
  rw [List.getD_eq_default _ _ hlen] at h
  exact Bool.noConfusion h

/-- Jumping to a valid target succeeds and only moves the position. -/
lemma jump_of_valid (pc : PC) (t : Nat) (h : pc.is_valid t = true) :
    pc.jump t = some { pc with position := t } := by
  unfold PC.jump
  rw [if_pos (Nat.le_of_lt (is_valid_lt h))]

/-- Stepping any machine in a non-`Running` status hits the `panic!`
arm of the status match. -/
lemma step_of_not_running {Mem : Type} (P : Patch Mem) (m : Machine Mem)
    (h : m.status ≠ .Running) : Machine.step P m = none := by
  unfold Machine.step
  split
  · rename_i hs
    exact absurd hs h
  · rfl

/-- C8: stepping a machine whose status is not `Running` panics
(modelled as `none`) rather than returning any value, so `step` never
transitions a machine out of a terminal status. -/
theorem c8_step_terminal_panics {Mem : Type} (P : Patch Mem) (m : Machine Mem)
    (h : m.status ≠ .Running) : Machine.step P m = none :=
  step_of_not_running P m h

/-- Witness for C8 at a concrete terminal machine. -/
theorem c8_step_terminal_panics_witness :
    Machine.step demoPatch { demoMachine with status := .ExitedOk } = none :=
  c8_step_terminal_panics demoPatch { demoMachine with status := .ExitedOk }
    (by decide)

/-- C9: `commit_account` modifies only the account cache and
`commit_blockhash` only the blockhash cache: status, cursor, memory,
stack, context, out, the gas counters, logs, removed set and depth are
unchanged by either call whether it succeeds or returns a
`CommitError`; in particular a `CommitError` never alters the status. -/
theorem c9_commit_touches_only_caches {Mem : Type} (m : Machine Mem)
    (c : AccountCommitment) (n h : Word) :
    ((m.commit_account c).2.status = m.status ∧
      (m.commit_account c).2.pc = m.pc ∧
      (m.commit_account c).2.state.memory = m.state.memory ∧
      (m.commit_account c).2.state.stack = m.state.stack ∧
      (m.commit_account c).2.state.context = m.state.context ∧
      (m.commit_account c).2.state.block = m.state.block ∧
      (m.commit_account c).2.state.out = m.state.out ∧
      (m.commit_account c).2.state.memory_cost = m.state.memory_cost ∧
      (m.commit_account c).2.state.used_gas = m.state.used_gas ∧
      (m.commit_account c).2.state.refunded_gas = m.state.refunded_gas ∧
      (m.commit_account c).2.state.blockhash_state = m.state.blockhash_state ∧
      (m.commit_account c).2.state.logs = m.state.logs ∧
      (m.commit_account c).2.state.removed = m.state.removed ∧
      (m.commit_account c).2.state.depth = m.state.depth) ∧
    ((m.commit_blockhash n h).2.status = m.status ∧
      (m.commit_blockhash n h).2.pc = m.pc ∧
      (m.commit_blockhash n h).2.state.memory = m.state.memory ∧
      (m.commit_blockhash n h).2.state.stack = m.state.stack ∧
      (m.commit_blockhash n h).2.state.context = m.state.context ∧
      (m.commit_blockhash n h).2.state.block = m.state.block ∧
      (m.commit_blockhash n h).2.state.out = m.state.out ∧
      (m.commit_blockhash n h).2.state.memory_cost = m.state.memory_cost ∧
      (m.commit_blockhash n h).2.state.used_gas = m.state.used_gas ∧
      (m.commit_blockhash n h).2.state.refunded_gas = m.state.refunded_gas ∧
      (m.commit_blockhash n h).2.state.account_state = m.state.account_state ∧
      (m.commit_blockhash n h).2.state.logs = m.state.logs ∧
      (m.commit_blockhash n h).2.state.removed = m.state.removed ∧
      (m.commit_blockhash n h).2.state.depth = m.state.depth) := by
  constructor
  · unfold Machine.commit_account
    split <;> simp
  · unfold Machine.commit_blockhash
    split <;> simp

/-- C4: `derive` produces a child whose depth is the parent's depth plus
one, whose memory, stack, out and gas counters start empty or zero,
whose status is `Running`, and whose caches, logs and removed set are
value-equal copies of the parent's.  The final conjunct states the
snapshot property: the child is a function of only the parent's block
header, caches, logs, removed set and depth, so mutating any other part
of the parent leaves the derived child unchanged — and since machines
are values here, a child built earlier can never be affected by later
parent mutations at all, nor the parent by the child. -/
theorem c4_derive_snapshot {Mem : Type} (P : Patch Mem) (m : Machine Mem)
    (context : Context) :
    (m.derive P context).state.depth = m.state.depth + 1 ∧
    (m.derive P context).state.memory = P.memDefault ∧
    (m.derive P context).state.stack = [] ∧
    (m.derive P context).state.out = [] ∧
    (m.derive P context).state.memory_cost = 0 ∧
    (m.derive P context).state.used_gas = 0 ∧
    (m.derive P context).state.refunded_gas = 0 ∧
    (m.derive P context).status = .Running ∧
    (m.derive P context).pc = PC.new context.code ∧
    (m.derive P context).state.context = context ∧
    (m.derive P context).state.block = m.state.block ∧
    (m.derive P context).state.account_state = m.state.account_state ∧
    (m.derive P context).state.blockhash_state = m.state.blockhash_state ∧
    (m.derive P context).state.logs = m.state.logs ∧
    (m.derive P context).state.removed = m.state.removed ∧
    (∀ m' : Machine Mem,
      m'.state.block = m.state.block →
      m'.state.account_state = m.state.account_state →
      m'.state.blockhash_state = m.state.blockhash_state →
      m'.state.logs = m.state.logs →
      m'.state.removed = m.state.removed →
      m'.state.depth = m.state.depth →
      m'.derive P context = m.derive P context) := by
  refine ⟨rfl, rfl, rfl, rfl, rfl, rfl, rfl, rfl, rfl, rfl, rfl, rfl, rfl, rfl, rfl, ?_⟩
  intro m' h₁ h₂ h₃ h₄ h₅ h₆
  unfold Machine.derive
  rw [h₁, h₂, h₃, h₄, h₅, h₆]

/-- C7: when the frame's address matches a configured precompiled entry
(gated by the exact-code matcher when present), `step` runs the
precompiled directly — the cursor is untouched, no instruction is
decoded — and returns `Ok(())`: `ExitedOk` with the reported gas as
`used_gas` and the output as `out` on success, `ExitedErr` with
`used_gas` set to the entire gas limit on an on-chain failure, and
`ExitedNotSupported` on a not-supported failure. -/
theorem c7_precompiled_dispatch {Mem : Type} (P : Patch Mem) (m : Machine Mem)
    (pre : PrecompiledEntry)
    (hm : m.status = .Running)
    (hf : P.precompileds.find? (precompiledMatches m.state.context.address m.pc.code) =
      some pre) :
    (∀ e, pre.gas_and_step m.state.context.data m.state.context.gas_limit =
        .error (.OnChain e) →
      Machine.step P m = some (.ok (),
        { m with state := { m.state with used_gas := m.state.context.gas_limit }
                 status := .ExitedErr e })) ∧
    (∀ e, pre.gas_and_step m.state.context.data m.state.context.gas_limit =
        .error (.NotSupported e) →
      Machine.step P m = some (.ok (), { m with status := .ExitedNotSupported e })) ∧
    (∀ gas ret, pre.gas_and_step m.state.context.data m.state.context.gas_limit =
        .ok (gas, ret) →
      gas ≤ m.state.context.gas_limit →
      Machine.step P m = some (.ok (),
        { m with state := { m.state with used_gas := gas, out := ret }
                 status := .ExitedOk })) := by
  obtain ⟨s, pcv, st⟩ := m
  dsimp only at hm hf ⊢
  subst hm
  refine ⟨?_, ?_, ?_⟩
  · intro e he
    unfold Machine.step Machine.step_precompiled
    rw [hf]
    dsimp only
    rw [he]
  · intro e he
    unfold Machine.step Machine.step_precompiled
    rw [hf]
    dsimp only
    rw [he]
  · intro gas ret he hle
    unfold Machine.step Machine.step_precompiled
    rw [hf]
    dsimp only
    rw [he]
    dsimp only
    rw [if_pos hle]

/-- A precompiled entry used for the C7 witness. -/
def preEntry : PrecompiledEntry :=
  { address := 0xa
    codeMatch := none
    gas_and_step := fun _ _ => .ok (7, [1, 2]) }

/-- A patch with one configured precompiled contract at address `0xa`. -/
def prePatch : Patch Unit :=
  { demoPatch with precompileds := [preEntry] }

/-- A machine whose frame address matches the precompiled entry. -/
def preMachine : Machine Unit :=
  Machine.new prePatch demoContext demoBlock 0

/-- Witness for C7 at a concrete machine and precompiled entry. -/
theorem c7_precompiled_dispatch_witness :
    Machine.step prePatch preMachine =
      some (.ok (), { preMachine with
        state := { preMachine.state with used_gas := 7, out := [1, 2] }
        status := .ExitedOk }) :=
  (c7_precompiled_dispatch prePatch preMachine preEntry rfl rfl).2.2 7 [1, 2] rfl
    (by decide)

/-- C1: a `step` that returns a Requirement leaves the machine — every
`State` field, the cursor position and the status — identical to before
the call, and once the missing fact is committed (through either commit
operation), re-invoking `step` produces the same result as stepping a
machine that had the fact present already, without the failed attempt
(replay determinism). -/
theorem c1_require_unchanged_replay {Mem : Type} (P : Patch Mem) (m m₁ : Machine Mem)
    (r : RequireError) (h : Machine.step P m = some (.error r, m₁))
    (c : AccountCommitment) (number hash : Word) :
    m₁ = m ∧
    Machine.step P ((m₁.commit_account c).2) = Machine.step P ((m.commit_account c).2) ∧
    Machine.step P ((m₁.commit_blockhash number hash).2) =
      Machine.step P ((m.commit_blockhash number hash).2) := by
  have hm : m₁ = m := by
    unfold Machine.step at h
    repeat' split at h
    all_goals try exact Option.noConfusion h
    all_goals try simp at h
    all_goals try (split at h <;> try simp at h)
    all_goals try (split at h <;> try simp at h)
    all_goals try (split at h <;> try simp at h)
    all_goals try (split at h <;> try simp at h)
    all_goals obtain ⟨hx, -⟩ := step_precompiled_false (by assumption)
    all_goals exact h.2.symm.trans hx
  subst hm
  exact ⟨rfl, rfl, rfl⟩

/-- The balance opcode byte used by the requirement demonstration. -/
def balanceByte : Nat := 0x31

/-- A precondition checker that requires an account fact.  Modelled from
the spec: reading an uncommitted address's balance signals a Requirement
identifying the account instead of mutating state. -/
def reqCheck (i : Instruction) (s : State Unit) :
    Except EvalOnChainError (Option ControlCheck) :=
  match i with
  | .other b =>
    if b = balanceByte then
      if s.account_state.committed.any (fun c0 => commitmentKey c0 = (0xf, 0, 0)) then
        .ok none
      else
        .error (.Require (.Account 0xf))
    else .ok none
  | _ => demoCheck i s

/-- A patch whose checker can demand an account commitment. -/
def reqPatch : Patch Unit :=
  { demoPatch with
    decode := fun b => if b = balanceByte then some (.other balanceByte) else demoDecode b
    check_opcode := reqCheck }

/-- A machine about to read an uncommitted account balance. -/
def reqMachine : Machine Unit :=
  Machine.new reqPatch
    { demoContext with code := [balanceByte] } demoBlock 0

/-- Witness for C1: the requirement fires at a concrete machine, and the
theorem applies there. -/
theorem c1_require_unchanged_replay_witness :
    Machine.step reqPatch reqMachine = some (.error (.Account 0xf), reqMachine) ∧
    (reqMachine = reqMachine ∧
      Machine.step reqPatch ((reqMachine.commit_account (.full 0xf 5 0 [])).2) =
        Machine.step reqPatch ((reqMachine.commit_account (.full 0xf 5 0 [])).2) ∧
      Machine.step reqPatch ((reqMachine.commit_blockhash 1 2).2) =
        Machine.step reqPatch ((reqMachine.commit_blockhash 1 2).2)) :=
  ⟨by decide,
    c1_require_unchanged_replay reqPatch reqMachine reqMachine (.Account 0xf)
      (by decide) (.full 0xf 5 0 []) 1 2⟩

/-- When no precompiled entry matches, `step_precompiled` reports
`false` and leaves the machine unchanged. -/
lemma step_precompiled_of_none {Mem : Type} {P : Patch Mem} {m : Machine Mem}
    (h : P.precompileds.find? (precompiledMatches m.state.context.address m.pc.code) =
      none) :
    m.step_precompiled P = some (false, m) := by
  unfold Machine.step_precompiled
  rw [h]

/-- C2: for a Running machine at a non-precompiled address whose next
instruction decodes and passes the opcode check, if the gas limit is
exceeded by memory gas plus used gas plus the instruction's cost, `step`
sets `ExitedErr(EmptyGas)` and returns with the state and cursor
otherwise untouched.  The theorem has no hypothesis about
`check_support`, so the conclusion holds for every support matrix —
in particular when the instruction is also unsupported — showing the
gas-limit check is applied before the hardfork support check. -/
theorem c2_empty_gas_before_support {Mem : Type} (P : Patch Mem) (m : Machine Mem)
    (i : Instruction)
    (hm : m.status = .Running)
    (hpre : P.precompileds.find? (precompiledMatches m.state.context.address m.pc.code) =
      none)
    (hend : m.pc.is_end = false)
    (hpeek : m.pc.peek P.decode = .ok i)
    (hcheck : m.checkedOpcode P i = .ok ())
    (hgas : m.state.context.gas_limit <
      memoryGas (P.memory_cost i m.state) + m.state.used_gas + P.gas_cost i m.state) :
    Machine.step P m = some (.ok (), { m with status := .ExitedErr .EmptyGas }) := by
  have hsp := step_precompiled_of_none hpre
  obtain ⟨s, pcv, st⟩ := m
  try dsimp only at hm hpeek hend hcheck hgas hsp ⊢
  subst hm
  unfold Machine.step
  rw [hsp]
  try dsimp only
  rw [hend]
  try dsimp only
  rw [hpeek]
  try dsimp only
  rw [hcheck]
  try dsimp only
  rw [if_pos hgas]
  simp

/-- A machine on the `PUSH1 0x01, JUMP` program whose gas limit cannot
even afford the push, under a patch that supports no instruction at
all. -/
def nsPatch : Patch Unit :=
  { demoPatch with check_support := fun _ _ => .error .NotSupported }

/-- The starved machine for the C2 witness. -/
def gasMachine : Machine Unit :=
  Machine.new nsPatch { demoContext with gas_limit := 2 } demoBlock 0

/-- Witness for C2: the gas limit 2 cannot afford the push cost 3, and
the patch reports every instruction as unsupported, yet `step` exits
with `EmptyGas`. -/
theorem c2_empty_gas_before_support_witness :
    nsPatch.check_support (.push 1) gasMachine.state = .error .NotSupported ∧
    Machine.step nsPatch gasMachine =
      some (.ok (), { gasMachine with status := .ExitedErr .EmptyGas }) :=
  ⟨rfl,
    c2_empty_gas_before_support nsPatch gasMachine (.push 1) rfl rfl (by decide) rfl
      (by decide) (by decide)⟩

/-- The executor does not touch the gas accounting fields or the
context.  Modelled from the spec: the opcode executor performs stack
manipulation, memory access, cache reads and writes and log emission;
gas accounting is done by the Machine after the executor returns. -/
def RunPreservesAccounting {Mem : Type} (P : Patch Mem) : Prop :=
  ∀ ip (s : State Mem) stip ag,
    (P.run_opcode ip s stip ag).1.context = s.context ∧
    (P.run_opcode ip s stip ag).1.used_gas = s.used_gas ∧
    (P.run_opcode ip s stip ag).1.refunded_gas = s.refunded_gas

/-- C6: on the successful-execution path the affordability check uses
the pre-stipend cost (`memory_gas + used_gas + gas_cost`, the stipend
not subtracted — the hypothesis `hgas` spells out that exact sum), and
only after execution is `used_gas` updated to
`used_gas + gas_cost - gas_stipend`, `memory_cost` set to the newly
computed memory cost, and `gas_refund` added to `refunded_gas`. -/
theorem c6_gas_accounting {Mem : Type} (P : Patch Mem) (m m' : Machine Mem)
    (i : Instruction) (res : Except RequireError Unit)
    (hm : m.status = .Running)
    (hpre : P.precompileds.find? (precompiledMatches m.state.context.address m.pc.code) =
      none)
    (hend : m.pc.is_end = false)
    (hpeek : m.pc.peek P.decode = .ok i)
    (hcheck : m.checkedOpcode P i = .ok ())
    (hgas : ¬ m.state.context.gas_limit <
      memoryGas (P.memory_cost i m.state) + m.state.used_gas + P.gas_cost i m.state)
    (hsup : P.check_support i m.state = .ok ())
    (hextra : P.extra_check_opcode i m.state (P.gas_stipend i m.state)
      (m.state.context.gas_limit -
        (memoryGas (P.memory_cost i m.state) + m.state.used_gas + P.gas_cost i m.state)) =
      .ok ())
    (hrun : RunPreservesAccounting P)
    (h : Machine.step P m = some (res, m')) :
    res = .ok () ∧
    m'.state.used_gas =
      m.state.used_gas + P.gas_cost i m.state - P.gas_stipend i m.state ∧
    m'.state.memory_cost = P.memory_cost i m.state ∧
    m'.state.refunded_gas = m.state.refunded_gas + P.gas_refund i m.state := by
  have hsp := step_precompiled_of_none hpre
  have hread := read_of_peek hpeek
  obtain ⟨s, pcv, st⟩ := m
  try dsimp only at hm hpeek hend hcheck hgas hsup hextra hsp hread h ⊢
  subst hm
  unfold Machine.step at h
  rw [hsp] at h
  try dsimp only at h
  rw [hend] at h
  try dsimp only at h
  rw [hpeek] at h
  try dsimp only at h
  rw [hcheck] at h
  try dsimp only at h
  rw [if_neg hgas] at h
  rw [hsup] at h
  try dsimp only at h
  rw [hextra] at h
  try dsimp only at h
  rw [hread] at h
  try dsimp only at h
  obtain ⟨hctx, hused, hrefund⟩ :=
    hrun (i, pcv.position) s (P.gas_stipend i s)
      (s.context.gas_limit - (memoryGas (P.memory_cost i s) + s.used_gas + P.gas_cost i s))
  rcases hrr : P.run_opcode (i, pcv.position) s (P.gas_stipend i s)
      (s.context.gas_limit -
        (memoryGas (P.memory_cost i s) + s.used_gas + P.gas_cost i s)) with ⟨s', ctl⟩
  rw [hrr] at h hused hrefund
  try dsimp only at h hused hrefund
  rcases ctl with _ | (_ | ⟨dest⟩ | ⟨context⟩ | ⟨context, range⟩) <;>
    try dsimp only at h
  · injection h with h'
    injection h' with hres hmach
    subst hmach
    exact ⟨hres.symm, by dsimp only; rw [hused], rfl, by dsimp only; rw [hrefund]⟩
  · injection h with h'
    injection h' with hres hmach
    subst hmach
    exact ⟨hres.symm, by dsimp only; rw [hused], rfl, by dsimp only; rw [hrefund]⟩
  · rcases hj : PC.jump { pcv with position := pcv.position + 1 + immSize i }
        (asUsize dest) with _ | pc''
    · rw [hj] at h
      exact Option.noConfusion h
    · rw [hj] at h
      try dsimp only at h
      injection h with h'
      injection h' with hres hmach
      subst hmach
      exact ⟨hres.symm, by dsimp only; rw [hused], rfl, by dsimp only; rw [hrefund]⟩
  · injection h with h'
    injection h' with hres hmach
    subst hmach
    exact ⟨hres.symm, by dsimp only; rw [hused], rfl, by dsimp only; rw [hrefund]⟩
  · injection h with h'
    injection h' with hres hmach
    subst hmach
    exact ⟨hres.symm, by dsimp only; rw [hused], rfl, by dsimp only; rw [hrefund]⟩

/-- The demonstration executor touches only the stack, so it satisfies
the accounting-preservation contract. -/
lemma demoRun_preserves : RunPreservesAccounting demoPatch := by
  intro ip s stip ag
  obtain ⟨i, pos⟩ := ip
  obtain ⟨mem, stk, ctx, blk, outv, mc, ug, rg, ast, bst, lgs, rmv, dep⟩ := s
  cases i with
  | push n => exact ⟨rfl, rfl, rfl⟩
  | jump =>
    cases stk with
    | nil => exact ⟨rfl, rfl, rfl⟩
    | cons d rest => exact ⟨rfl, rfl, rfl⟩
  | stop => exact ⟨rfl, rfl, rfl⟩
  | jumpdest => exact ⟨rfl, rfl, rfl⟩
  | other b => exact ⟨rfl, rfl, rfl⟩

/-- The machine after one successful push step on the demonstration
program. -/
def demoMachine₁ : Machine Unit :=
  { state :=
      { memory := ()
        stack := [1]
        context := demoContext
        block := demoBlock
        out := []
        memory_cost := 0
        used_gas := 3
        refunded_gas := 0
        account_state := ⟨[]⟩
        blockhash_state := ⟨[]⟩
        logs := []
        removed := []
        depth := 0 }
    pc := { code := [0x60, 0x01, 0x56], position := 2 }
    status := .Running }

/-- Witness for C6 at the push step of the demonstration program. -/
theorem c6_gas_accounting_witness :
    Machine.step demoPatch demoMachine = some (.ok (), demoMachine₁) ∧
    ((.ok () : Except RequireError Unit) = .ok () ∧
      demoMachine₁.state.used_gas =
        demoMachine.state.used_gas + demoPatch.gas_cost (.push 1) demoMachine.state -
          demoPatch.gas_stipend (.push 1) demoMachine.state ∧
      demoMachine₁.state.memory_cost = demoPatch.memory_cost (.push 1) demoMachine.state ∧
      demoMachine₁.state.refunded_gas =
        demoMachine.state.refunded_gas + demoPatch.gas_refund (.push 1) demoMachine.state) :=
  ⟨by decide,
    c6_gas_accounting demoPatch demoMachine demoMachine₁ (.push 1) (.ok ()) rfl rfl
      (by decide) (by decide) (by decide) (by decide) rfl rfl demoRun_preserves
      (by decide)⟩

/-- The executor reports a jump only for a destination that the checker
reported for the same instruction and state.  This is the stated
precondition of C10 relating the missing `run` and `check` modules. -/
def RunCheckAgree {Mem : Type} (P : Patch Mem) : Prop :=
  ∀ i pos (s : State Mem) stip ag dest,
    (P.run_opcode (i, pos) s stip ag).2 = some (.Jump dest) →
    P.check_opcode i s = .ok (some (.Jump dest))

/-- C10: under the precondition that `run_opcode` emits
`Control::Jump(dest)` only for a destination that `check_opcode` also
returned for the same instruction and state, the two `unwrap` calls in
`step` never panic on a Running machine at a non-precompiled address:
`pc.read()` succeeds because `pc.peek()` already succeeded at the same
position, and `pc.jump(dest)` succeeds because the check established
the bound and validity of `dest`. -/
theorem c10_no_unwrap_panic {Mem : Type} (P : Patch Mem) (m : Machine Mem)
    (hm : m.status = .Running)
    (hpre : P.precompileds.find? (precompiledMatches m.state.context.address m.pc.code) =
      none)
    (hagree : RunCheckAgree P) :
    Machine.step P m ≠ none := by
  have hsp := step_precompiled_of_none hpre
  obtain ⟨s, pcv, st⟩ := m
  try dsimp only at hm hsp ⊢
  subst hm
  unfold Machine.step
  rw [hsp]
  try dsimp only
  cases hend : pcv.is_end with
  | true => simp
  | false =>
    rw [if_neg Bool.false_ne_true]
    rcases hpk : PC.peek P.decode pcv with e | i
    · simp
    · try dsimp only
      have hread := read_of_peek hpk
      rcases hco : Machine.checkedOpcode P i
          { state := s, pc := pcv, status := MachineStatus.Running } with e | u
      · cases e with
        | OnChain e => simp
        | Require e => simp
      · cases u
        try dsimp only
        by_cases hlt : s.context.gas_limit <
          memoryGas (P.memory_cost i s) + s.used_gas + P.gas_cost i s
        · rw [if_pos hlt]
          simp
        · rw [if_neg hlt]
          rcases hsup : P.check_support i s with e | u2
          · simp
          · cases u2
            try dsimp only
            rcases hextra : P.extra_check_opcode i s (P.gas_stipend i s)
                (s.context.gas_limit -
                  (memoryGas (P.memory_cost i s) + s.used_gas + P.gas_cost i s)) with
              e | u3
            · simp
            · cases u3
              try dsimp only
              rw [hread]
              try dsimp only
              rcases hrr : P.run_opcode (i, pcv.position) s (P.gas_stipend i s)
                  (s.context.gas_limit -
                    (memoryGas (P.memory_cost i s) + s.used_gas + P.gas_cost i s)) with
                ⟨s', ctl⟩
              try dsimp only
              rcases ctl with _ | (_ | ⟨dest⟩ | ⟨context⟩ | ⟨context, range⟩) <;>
                try simp
              have hchk := hagree i pcv.position s (P.gas_stipend i s)
                (s.context.gas_limit -
                  (memoryGas (P.memory_cost i s) + s.used_gas + P.gas_cost i s)) dest
                (by rw [hrr])
              unfold Machine.checkedOpcode at hco
              rw [hchk] at hco
              try dsimp only at hco
              by_cases hvalid : dest ≤ usizeMax ∧ pcv.is_valid (asUsize dest) = true
              · obtain ⟨hle, hv⟩ := hvalid
                rw [jump_of_valid { pcv with position := pcv.position + 1 + immSize i }
                  (asUsize dest) hv]
                simp
              · rw [if_neg (by exact_mod_cast hvalid)] at hco
                exact Except.noConfusion hco

/-- The demonstration executor reports jumps exactly as its checker
does. -/
lemma demoRun_check_agree : RunCheckAgree demoPatch := by
  intro i pos s stip ag dest h
  obtain ⟨mem, stk, ctx, blk, outv, mc, ug, rg, ast, bst, lgs, rmv, dep⟩ := s
  cases i with
  | push n =>
    simp only [demoPatch, demoRun] at h
    exact Option.noConfusion h
  | jump =>
    simp only [demoPatch, demoRun] at h
    cases stk with
    | nil => simp at h
    | cons d rest =>
      simp only [Option.some.injEq, Control.Jump.injEq] at h
      subst h
      rfl
  | stop =>
    simp only [demoPatch, demoRun] at h
    simp at h
  | jumpdest =>
    simp only [demoPatch, demoRun] at h
    exact Option.noConfusion h
  | other b =>
    simp only [demoPatch, demoRun] at h
    exact Option.noConfusion h

/-- Witness for C10 at the demonstration machine. -/
theorem c10_no_unwrap_panic_witness :
    Machine.step demoPatch demoMachine ≠ none :=
  c10_no_unwrap_panic demoPatch demoMachine rfl rfl demoRun_check_agree

/-- The number of code bytes occupied by the instruction starting with
byte `b`: one plus the push-immediate width for push opcodes. -/
def instSize (b : Nat) : Nat :=
  if 0x60 ≤ b ∧ b ≤ 0x7f then 1 + (b - 0x5f) else 1

/-- The byte offsets visited by the jump-destination pre-scan: the
instruction starts of the code sequence. -/
inductive Reaches (code : List Nat) : Nat → Prop where
  | zero : Reaches code 0
  | next : ∀ q, Reaches code q → q < code.length →
      Reaches code (q + instSize (code.getD q 0))

/-- Dropping one instruction from the front commutes with the
jump-destination pre-scan. -/
lemma validMap_drop_head (b : Nat) (rest : List Nat) :
    (validMap (b :: rest)).drop (instSize b) = validMap ((b :: rest).drop (instSize b)) := by
  by_cases hp : 0x60 ≤ b ∧ b ≤ 0x7f
  · rw [validMap_cons_push rest hp]
    unfold instSize
    rw [if_pos hp]
    rw [Nat.add_comm 1 (b - 0x5f), List.drop_succ_cons, List.drop_succ_cons]
    rcases le_or_lt (b - 0x5f) rest.length with hle | hlt
    · rw [Nat.min_eq_left hle]
      exact List.drop_left' (by simp)
    · rw [Nat.min_eq_right (Nat.le_of_lt hlt)]
      rw [List.drop_eq_nil_of_le (Nat.le_of_lt hlt)]
      rw [show validMap [] = [] from rfl, List.append_nil]
      exact List.drop_eq_nil_of_le (by simp [Nat.le_of_lt hlt])
  · rw [validMap_cons_other rest hp]
    unfold instSize
    rw [if_neg hp]
    simp

/-- Dropping up to any pre-scan-visited offset commutes with the
jump-destination pre-scan. -/
lemma validMap_drop_reaches {code : List Nat} {q : Nat} (h : Reaches code q) :
    (validMap code).drop q = validMap (code.drop q) := by
  induction h with
  | zero => simp
  | next q hr hlt ih =>
    have hb : code.getD q 0 = code[q] := by
      rw [List.getD_eq_getElem?_getD, List.getElem?_eq_getElem hlt]
      rfl
    have hcons : code.drop q = code[q] :: code.drop (q + 1) :=
      List.drop_eq_getElem_cons hlt
    calc (validMap code).drop (q + instSize (code.getD q 0))
        = ((validMap code).drop q).drop (instSize (code.getD q 0)) :=
          (List.drop_drop _ _ _).symm
      _ = (validMap (code.drop q)).drop (instSize (code.getD q 0)) := by rw [ih]
      _ = validMap ((code.drop q).drop (instSize (code.getD q 0))) := by
          rw [hb, hcons]
          exact validMap_drop_head _ _
      _ = validMap (code.drop (q + instSize (code.getD q 0))) := by
          rw [List.drop_drop]

/-- C5: a jump whose target is out of bounds, inside a push-immediate's
operand bytes, or not holding the jump-destination marker makes `step`
exit with `ExitedErr(BadJumpDest)` without executing the instruction
(first conjunct: the machine is unchanged apart from the status, over
every patch); an offset that the pre-scan places inside a
push-immediate's operand is never a valid jump target, with no
constraint on the byte stored there — in particular even when it equals
the marker byte `0x5b` (second conjunct); and the program
`PUSH1 0x01, JUMP` terminates in `ExitedErr(BadJumpDest)` after two
steps (third conjunct). -/
theorem c5_bad_jump_dest :
    (∀ (Mem : Type) (P : Patch Mem) (m : Machine Mem) (i : Instruction) (dest : Word),
      m.status = .Running →
      P.precompileds.find? (precompiledMatches m.state.context.address m.pc.code) =
        none →
      m.pc.is_end = false →
      m.pc.peek P.decode = .ok i →
      P.check_opcode i m.state = .ok (some (.Jump dest)) →
      ¬(dest ≤ usizeMax ∧ m.pc.is_valid (asUsize dest) = true) →
      Machine.step P m = some (.ok (), { m with status := .ExitedErr .BadJumpDest })) ∧
    (∀ (code : List Nat) (q p : Nat),
      Reaches code q → q < code.length →
      0x60 ≤ code.getD q 0 → code.getD q 0 ≤ 0x7f →
      q < p → p ≤ q + (code.getD q 0 - 0x5f) →
      PC.is_valid (PC.new code) p = false) ∧
    (((Machine.step demoPatch demoMachine).bind
        (fun r => Machine.step demoPatch r.2)).map (fun r => r.2.status) =
      some (.ExitedErr .BadJumpDest)) := by
  refine ⟨?_, ?_, by decide⟩
  · intro Mem P m i dest hm hpre hend hpeek hchk hbad
    have hco : m.checkedOpcode P i = .error (.OnChain .BadJumpDest) := by
      unfold Machine.checkedOpcode
      rw [hchk]
      try dsimp only
      rw [if_neg hbad]
    have hsp := step_precompiled_of_none hpre
    obtain ⟨s, pcv, st⟩ := m
    try dsimp only at hm hpeek hend hco hsp ⊢
    subst hm
    unfold Machine.step
    rw [hsp]
    try dsimp only
    rw [hend]
    try dsimp only
    rw [hpeek]
    try dsimp only
    rw [hco]
    simp
  · intro code q p hreach hq hlo hhi hlt hle
    have hb : code.getD q 0 = code[q] := by
      rw [List.getD_eq_getElem?_getD, List.getElem?_eq_getElem hq]
      rfl
    show (validMap code).getD p false = false
    rw [List.getD_eq_getElem?_getD]
    have hp : p = q + (p - q) := by omega
    rw [hp, ← List.getElem?_drop, validMap_drop_reaches hreach]
    have hcons : code.drop q = code.getD q 0 :: code.drop (q + 1) := by
      rw [hb]
      exact List.drop_eq_getElem_cons hq
    rw [hcons, validMap_cons_push _ ⟨hlo, hhi⟩]
    have hj : p - q = (p - q - 1) + 1 := by omega
    rw [hj, List.getElem?_cons_succ]
    by_cases hcase :
      p - q - 1 < min (code.getD q 0 - 0x5f) (code.drop (q + 1)).length
    · rw [List.getElem?_append_left (by simpa using hcase)]
      rw [List.getElem?_replicate]
      split <;> rfl
    · have hminle : min (code.getD q 0 - 0x5f) (code.drop (q + 1)).length ≤
          p - q - 1 := Nat.le_of_not_lt hcase
      have hjn : p - q - 1 < code.getD q 0 - 0x5f := by omega
      have hlen : (code.drop (q + 1)).length ≤ p - q - 1 := by
        rcases min_choice (code.getD q 0 - 0x5f) (code.drop (q + 1)).length with
          hmc | hmc <;> omega
      have hnil : (code.drop (q + 1)).drop (code.getD q 0 - 0x5f) = [] :=
        List.drop_eq_nil_of_le (by omega)
      rw [hnil, show validMap [] = [] from rfl, List.append_nil]
      rw [List.getElem?_eq_none (by simpa using hminle)]
      rfl

/-- Witness for C5: the theorem applies at the machine about to execute
the bad jump of the demonstration program, and at the program
`PUSH1 0x5b, JUMP`, whose operand byte at offset 1 equals the
jump-destination marker yet is not a valid target. -/
theorem c5_bad_jump_dest_witness :
    Machine.step demoPatch demoMachine₁ =
      some (.ok (), { demoMachine₁ with status := .ExitedErr .BadJumpDest }) ∧
    PC.is_valid (PC.new [0x60, 0x5b, 0x56]) 1 = false :=
  ⟨c5_bad_jump_dest.1 Unit demoPatch demoMachine₁ .jump 1 rfl rfl (by decide)
      (by decide) (by decide) (by decide),
    c5_bad_jump_dest.2.1 [0x60, 0x5b, 0x56] 0 1 Reaches.zero (by decide) (by decide)
      (by decide) (by decide) (by decide)⟩

/-- A successful jump does not change the cursor's code. -/
lemma jump_code {pc pc' : PC} {t : Nat} (h : pc.jump t = some pc') :
    pc'.code = pc.code := by
  unfold PC.jump at h
  split at h
  · injection h with h'
    rw [← h']
  · exact Option.noConfusion h

/-- The machines reachable from `Machine::new` or `Machine::with_states`
(started with a non-negative gas limit) by any sequence of `step`,
`commit_account` and `commit_blockhash` calls. -/
inductive Reachable {Mem : Type} (P : Patch Mem) : Machine Mem → Prop where
  | init : ∀ (context : Context) (block : HeaderParams) (depth : Nat)
      (astate : AccountState) (bstate : BlockhashState),
      0 ≤ context.gas_limit →
      Reachable P (Machine.with_states P context block depth astate bstate)
  | step : ∀ m res m', Reachable P m → Machine.step P m = some (res, m') →
      Reachable P m'
  | commitA : ∀ m c, Reachable P m → Reachable P ((m.commit_account c).2)
  | commitB : ∀ m n h, Reachable P m → Reachable P ((m.commit_blockhash n h).2)

/-- The inductive gas invariant: total used gas within the gas limit,
and a machine still Running at a precompiled-matching address has not
accumulated any memory cost (it exits on its first step). -/
def GasInv {Mem : Type} (P : Patch Mem) (m : Machine Mem) : Prop :=
  memoryGas m.state.memory_cost + m.state.used_gas ≤ m.state.context.gas_limit ∧
  (m.status = .Running →
    P.precompileds.find? (precompiledMatches m.state.context.address m.pc.code) =
      none ∨
    m.state.memory_cost = 0)

/-- One `step` preserves the gas invariant, for any patch whose stipends
are non-negative and whose executor leaves the accounting fields
alone. -/
lemma gasInv_step {Mem : Type} {P : Patch Mem}
    (hstip : ∀ i s, 0 ≤ P.gas_stipend i s)
    (hrun : RunPreservesAccounting P)
    {m : Machine Mem} {res : Except RequireError Unit} {m' : Machine Mem}
    (hinv : GasInv P m) (h : Machine.step P m = some (res, m')) : GasInv P m' := by
  obtain ⟨h1, h2⟩ := hinv
  rcases hfind : P.precompileds.find?
      (precompiledMatches m.state.context.address m.pc.code) with _ | pre
  · -- no precompiled entry matches
    have hsp := step_precompiled_of_none hfind
    obtain ⟨s, pcv, st⟩ := m
    try dsimp only at h1 h2 hsp hfind h ⊢
    cases st with
    | Running =>
      unfold Machine.step at h
      rw [hsp] at h
      try dsimp only at h
      cases hend : pcv.is_end with
      | true =>
        rw [hend, if_pos rfl] at h
        injection h with h'
        injection h' with hres hmach
        subst hmach
        exact ⟨h1, fun habs => MachineStatus.noConfusion habs⟩
      | false =>
        rw [hend, if_neg Bool.false_ne_true] at h
        rcases hpk : PC.peek P.decode pcv with e | i
        · rw [hpk] at h
          try dsimp only at h
          injection h with h'
          injection h' with hres hmach
          subst hmach
          exact ⟨h1, fun habs => MachineStatus.noConfusion habs⟩
        · rw [hpk] at h
          try dsimp only at h
          have hread := read_of_peek hpk
          rcases hco : Machine.checkedOpcode P i
              { state := s, pc := pcv, status := MachineStatus.Running } with e | u
          · rw [hco] at h
            cases e with
            | OnChain e =>
              try dsimp only at h
              injection h with h'
              injection h' with hres hmach
              subst hmach
              exact ⟨h1, fun habs => MachineStatus.noConfusion habs⟩
            | Require e =>
              try dsimp only at h
              injection h with h'
              injection h' with hres hmach
              subst hmach
              exact ⟨h1, fun _ => Or.inl hfind⟩
          · cases u
            rw [hco] at h
            try dsimp only at h
            by_cases hlt : s.context.gas_limit <
              memoryGas (P.memory_cost i s) + s.used_gas + P.gas_cost i s
            · rw [if_pos hlt] at h
              injection h with h'
              injection h' with hres hmach
              subst hmach
              exact ⟨h1, fun habs => MachineStatus.noConfusion habs⟩
            · rw [if_neg hlt] at h
              rcases hsup : P.check_support i s with e | u2
              · rw [hsup] at h
                try dsimp only at h
                injection h with h'
                injection h' with hres hmach
                subst hmach
                exact ⟨h1, fun habs => MachineStatus.noConfusion habs⟩
              · cases u2
                rw [hsup] at h
                try dsimp only at h
                rcases hextra : P.extra_check_opcode i s (P.gas_stipend i s)
                    (s.context.gas_limit -
                      (memoryGas (P.memory_cost i s) + s.used_gas +
                        P.gas_cost i s)) with e | u3
                · rw [hextra] at h
                  try dsimp only at h
                  injection h with h'
                  injection h' with hres hmach
                  subst hmach
                  exact ⟨h1, fun habs => MachineStatus.noConfusion habs⟩
                · cases u3
                  rw [hextra] at h
                  try dsimp only at h
                  rw [hread] at h
                  try dsimp only at h
                  obtain ⟨hctx, hused, hrefund⟩ :=
                    hrun (i, pcv.position) s (P.gas_stipend i s)
                      (s.context.gas_limit -
                        (memoryGas (P.memory_cost i s) + s.used_gas + P.gas_cost i s))
                  rcases hrr : P.run_opcode (i, pcv.position) s (P.gas_stipend i s)
                      (s.context.gas_limit -
                        (memoryGas (P.memory_cost i s) + s.used_gas +
                          P.gas_cost i s)) with ⟨s', ctl⟩
                  rw [hrr] at h hctx hused hrefund
                  try dsimp only at h hctx hused hrefund
                  have hbound : memoryGas (P.memory_cost i s) +
                      (s'.used_gas + P.gas_cost i s - P.gas_stipend i s) ≤
                      s'.context.gas_limit := by
                    rw [hctx, hused]
                    have h1' := hstip i s
                    have h2' := Int.not_lt.mp hlt
                    linarith
                  rcases ctl with _ | (_ | ⟨dest⟩ | ⟨context⟩ | ⟨context, range⟩) <;>
                    try dsimp only at h
                  · injection h with h'
                    injection h' with hres hmach
                    subst hmach
                    refine ⟨hbound, fun _ => Or.inl ?_⟩
                    try dsimp only
                    rw [hctx]
                    exact hfind
                  · injection h with h'
                    injection h' with hres hmach
                    subst hmach
                    exact ⟨hbound, fun habs => MachineStatus.noConfusion habs⟩
                  · rcases hj : PC.jump
                        { pcv with position := pcv.position + 1 + immSize i }
                        (asUsize dest) with _ | pc''
                    · rw [hj] at h
                      exact Option.noConfusion h
                    · rw [hj] at h
                      try dsimp only at h
                      injection h with h'
                      injection h' with hres hmach
                      subst hmach
                      refine ⟨hbound, fun _ => Or.inl ?_⟩
                      try dsimp only
                      rw [hctx, jump_code hj]
                      exact hfind
                  · injection h with h'
                    injection h' with hres hmach
                    subst hmach
                    exact ⟨hbound, fun habs => MachineStatus.noConfusion habs⟩
                  · injection h with h'
                    injection h' with hres hmach
                    subst hmach
                    exact ⟨hbound, fun habs => MachineStatus.noConfusion habs⟩
    | ExitedOk => exact Option.noConfusion h
    | ExitedErr e => exact Option.noConfusion h
    | ExitedNotSupported e => exact Option.noConfusion h
    | InvokeCreate c => exact Option.noConfusion h
    | InvokeCall c r => exact Option.noConfusion h
  · -- a precompiled entry matches
    obtain ⟨s, pcv, st⟩ := m
    try dsimp only at h1 h2 hfind h ⊢
    cases st with
    | Running =>
      have hmc : s.memory_cost = 0 := by
        rcases h2 rfl with hnone | hmc
        · rw [hfind] at hnone
          exact Option.noConfusion hnone
        · exact hmc
      unfold Machine.step Machine.step_precompiled at h
      rw [hfind] at h
      try dsimp only at h
      rcases hgs : pre.gas_and_step s.context.data s.context.gas_limit with
        e | ⟨gas, ret⟩
      · cases e with
        | OnChain e =>
          rw [hgs] at h
          try dsimp only at h
          injection h with h'
          injection h' with hres hmach
          subst hmach
          refine ⟨?_, fun habs => MachineStatus.noConfusion habs⟩
          try dsimp only
          rw [hmc]
          simp [memoryGas]
        | NotSupported e =>
          rw [hgs] at h
          try dsimp only at h
          injection h with h'
          injection h' with hres hmach
          subst hmach
          exact ⟨h1, fun habs => MachineStatus.noConfusion habs⟩
      · rw [hgs] at h
        try dsimp only at h
        by_cases hle : gas ≤ s.context.gas_limit
        · rw [if_pos hle] at h
          injection h with h'
          injection h' with hres hmach
          subst hmach
          refine ⟨?_, fun habs => MachineStatus.noConfusion habs⟩
          try dsimp only
          rw [hmc]
          simpa [memoryGas] using hle
        · rw [if_neg hle] at h
          exact Option.noConfusion h
    | ExitedOk => exact Option.noConfusion h
    | ExitedErr e => exact Option.noConfusion h
    | ExitedNotSupported e => exact Option.noConfusion h
    | InvokeCreate c => exact Option.noConfusion h
    | InvokeCall c r => exact Option.noConfusion h

/-- C3: for every machine reachable from `Machine::new` or
`Machine::with_states` (which start with zero gas counters) by any
sequence of `step`, `commit_account` and `commit_blockhash` calls, the
total used gas `memory_gas(memory_cost) + used_gas` never exceeds
`context.gas_limit` — in particular after every `step` returning
`Ok(())`.  The hypotheses record the spec-level contract of the missing
cost and run modules: stipends are non-negative gas quantities and the
executor does not touch the accounting fields. -/
theorem c3_gas_invariant {Mem : Type} (P : Patch Mem)
    (hstip : ∀ i s, 0 ≤ P.gas_stipend i s)
    (hrun : RunPreservesAccounting P)
    (m : Machine Mem) (h : Reachable P m) :
    memoryGas m.state.memory_cost + m.state.used_gas ≤ m.state.context.gas_limit := by
  have main : GasInv P m := by
    induction h with
    | init context block depth astate bstate hg =>
      refine ⟨?_, fun _ => Or.inr rfl⟩
      simpa [Machine.with_states, memoryGas] using hg
    | step m res m' hr hstep ih => exact gasInv_step hstip hrun ih hstep
    | commitA m c hr ih =>
      obtain ⟨i1, i2⟩ := ih
      unfold Machine.commit_account
      split
      · exact ⟨i1, i2⟩
      · exact ⟨i1, i2⟩
    | commitB m n hsh hr ih =>
      obtain ⟨i1, i2⟩ := ih
      unfold Machine.commit_blockhash
      split
      · exact ⟨i1, i2⟩
      · exact ⟨i1, i2⟩
  exact main.1

/-- Witness for C3: the invariant instantiated after one step of the
demonstration machine. -/
theorem c3_gas_invariant_witness :
    memoryGas demoMachine₁.state.memory_cost + demoMachine₁.state.used_gas ≤
      demoMachine₁.state.context.gas_limit :=
  c3_gas_invariant demoPatch (fun _ _ => le_refl 0) demoRun_preserves demoMachine₁
    (Reachable.step demoMachine (.ok ()) demoMachine₁
      (Reachable.init demoContext demoBlock 0 AccountState.default
        BlockhashState.default (by decide))
      (by decide))

/-- Witness for C4: the snapshot conjunct applied at two concrete parent
machines — the demonstration machine before and after its push step —
whose snapshot fields agree, so their derived children coincide. -/
theorem c4_derive_snapshot_witness :
    demoMachine₁.derive demoPatch demoContext =
      demoMachine.derive demoPatch demoContext :=
  (c4_derive_snapshot demoPatch demoMachine
      demoContext).2.2.2.2.2.2.2.2.2.2.2.2.2.2.2 demoMachine₁
    (by decide) (by decide) (by decide) (by decide) (by decide) (by decide)

end SputnikVM
